import Mathlib

/-!
Shallow embedding of the "Recompilation Patcher" utility
(`Sources/Recompilation Patcher/Patcher/Patcher.{hpp,cpp}` and `Main.cpp`).

Buffers are modelled as `List Char` (one `Char` per byte of the C++
`std::string`).  `size_t` arithmetic on the brace-depth counter is modelled
as `Nat` arithmetic modulo `2 ^ 64`.
-/

/-- The modulus of C++ `size_t` arithmetic (64-bit platforms). -/
def U64 : Nat := 2 ^ 64

/-- C++ `patcher::Type` (the name `Type` is reserved in Lean). -/
inductive PatchType : Type where
  | ReplaceOne : PatchType
  | ExplicitFunction : PatchType
deriving DecidableEq, Repr

/-- C++ `patcher::Descriptor`. -/
structure Descriptor : Type where
  type : PatchType
  token : List Char
  replacement : List Char
deriving DecidableEq, Repr

/-- Model of `std::string::find`: index of the first occurrence of `tok` in `hay`
(`none` = `npos`).  An empty `tok` is found at position 0. -/
def findSub (hay tok : List Char) : Option Nat :=
  if tok.isPrefixOf hay then some 0
  else
    match hay with
    | [] => none
    | _ :: t => (findSub t tok).map (· + 1)

/-- The anchor `std::format("function {}(", function)` searched for by
`FindExplicitFunctionBody`. -/
def anchorOf (function : List Char) : List Char :=
  "function ".data ++ function ++ "(".data

/-- The scanning loop of `FindExplicitFunctionBody`:
`for (size_t depth {}; end < haystack.size() && !(foundBegin && depth == 0); ++end)`.
`rest` is the not-yet-scanned suffix of the haystack, `i` the absolute index
of its first byte (`end` in the C++), `b` the current `begin`, `fb` the
`foundBegin` flag and `d` the `size_t` depth counter.  Returns the final
`(begin, end)` pair. -/
def braceScan (rest : List Char) (i b : Nat) (fb : Bool) (d : Nat) : Nat × Nat :=
  if fb = true ∧ d = 0 then (b, i)
  else
    match rest with
    | [] => (b, i)
    | c :: rs =>
      if c = '{' then braceScan rs (i + 1) (if fb then b else i) true ((d + 1) % U64)
      else if c = '}' then braceScan rs (i + 1) b fb ((d + (U64 - 1)) % U64)
      else braceScan rs (i + 1) b fb d

/-- C++ `FindExplicitFunctionBody` (Patcher.cpp).  Returns `(0, 0)` on
failure: anchor absent, or the scan's final `end` equals the haystack size. -/
def FindExplicitFunctionBody (haystack function : List Char) : Nat × Nat :=
  match findSub haystack (anchorOf function) with
  | none => (0, 0)
  | some definition =>
    let r := braceScan (haystack.drop definition) definition definition false 0
    if r.2 = haystack.length then (0, 0) else r

/-- One iteration of the `switch` in `Apply`: the effect of a single
descriptor on the buffer, `none` when the descriptor fails to match.
(For `ExplicitFunction`, `FindExplicitFunctionBody` only ever succeeds with
`begin < end ≤ length`, so `take begin ++ replacement ++ drop end` is
exactly `file.replace(begin, end - begin, replacement)`.) -/
def applyOne (file : List Char) (desc : Descriptor) : Option (List Char) :=
  match desc.type with
  | .ReplaceOne =>
    match findSub file desc.token with
    | none => none
    | some pos => some (file.take pos ++ desc.replacement ++ file.drop (pos + desc.token.length))
  | .ExplicitFunction =>
    let r := FindExplicitFunctionBody file desc.token
    if r.1 = 0 ∨ r.2 = 0 then none
    else some (file.take r.1 ++ desc.replacement ++ file.drop r.2)

/-- C++ `patcher::Apply`.  Returns the final buffer together with the value
of the returned `std::string_view`: `[]` (the empty view) on success, the
first failing descriptor's token otherwise.  The buffer component carries
the in-place mutations performed before the failure. -/
def Apply (file : List Char) (descs : List Descriptor) : List Char × List Char :=
  match descs with
  | [] => (file, [])
  | desc :: rest =>
    match applyOne file desc with
    | none => (file, desc.token)
    | some file' => Apply file' rest

/-- The result of iterating `applyOne` and requiring every descriptor to
match.  This is the spec's success notion for `ApplyOutcome` ("all patches
applied"): `ApplyAllOk file descs = some res` exactly when no descriptor
fails, in which case `Apply file descs = (res, [])`. -/
def ApplyAllOk (file : List Char) (descs : List Descriptor) : Option (List Char) :=
  match descs with
  | [] => some file
  | desc :: rest => (applyOne file desc).bind (fun f => ApplyAllOk f rest)

/-- One substring substitution: `b'` is obtained from `b` by replacing a
single contiguous span with `rep`, every byte outside the span unchanged. -/
def SubstStep (rep : List Char) (b b' : List Char) : Prop :=
  ∃ pre mid suf, b = pre ++ mid ++ suf ∧ b' = pre ++ rep ++ suf

/-- Relation `AppliedAll descs b b'`: `b'` results from `b` by performing, in order,
exactly one substring substitution per descriptor (with that descriptor's
replacement). -/
inductive AppliedAll : List Descriptor → List Char → List Char → Prop where
  | nil (b : List Char) : AppliedAll [] b b
  | cons (d : Descriptor) (ds : List Descriptor) (b b1 b2 : List Char) :
      SubstStep d.replacement b b1 → AppliedAll ds b1 b2 → AppliedAll (d :: ds) b b2

/-- The NUL character, `'\0'`. -/
def nulChar : Char := Char.ofNat 0

/-- C++ `ReadFileUTF8` (Main.cpp).  When the stream cannot be opened
(`readOk = false`) it returns the empty string.  Otherwise it collects the
file's bytes into a `std::vector<uint8_t>`, appends a NUL terminator, and
converts `binary.data()` — a `const char *` — to `std::string`, which copies
bytes up to (excluding) the first NUL. -/
def ReadFileUTF8 (readOk : Bool) (fileBytes : List Char) : List Char :=
  if readOk then (fileBytes ++ [nulChar]).takeWhile (fun c => c ≠ nulChar)
  else []

/-- The four diagnostic lines `main` can print for a file. -/
inductive Msg : Type where
  | unableToRead (path : List Char) : Msg
  | unableToApply (path token : List Char) : Msg
  | patched (path : List Char) : Msg
deriving DecidableEq, Repr

/-- Outcome of `main`'s loop body for one file: the line printed, whether
the loop continues (`false` = `return -1`), and whether `WriteFileUTF8` was
called (i.e. whether the buffer was persisted to disk). -/
structure FileResult : Type where
  msg : Msg
  cont : Bool
  wrote : Bool
deriving DecidableEq, Repr

/-- One entry of `main`'s `patches` map together with the file-system
behaviour it meets: `readOk` is whether the `ifstream` opens, `bytes` the
on-disk contents, `writeOk` the value `WriteFileUTF8` returns. -/
structure FileJob : Type where
  path : List Char
  readOk : Bool
  bytes : List Char
  descs : List Descriptor
  writeOk : Bool

/-- The body of `main`'s loop for one file (Main.cpp lines 50-68).  Note
that `WriteFileUTF8`'s return value (`j.writeOk`) is discarded by the code,
so the result does not depend on it. -/
def processFile (j : FileJob) : FileResult :=
  let contents := ReadFileUTF8 j.readOk j.bytes
  if contents = [] then ⟨.unableToRead j.path, false, false⟩
  else
    let r := Apply contents j.descs
    if r.2 ≠ [] then ⟨.unableToApply j.path r.2, false, false⟩
    else ⟨.patched j.path, true, true⟩

/-- Model of `main`'s loop over the `patches` map (in some iteration order): the
lines printed, and the process exit status (`0`, or `-1` from the first
failing file, after which no further file is touched). -/
def runMain (jobs : List FileJob) : List Msg × Int :=
  match jobs with
  | [] => ([], 0)
  | j :: rest =>
    let r := processFile j
    if r.cont then
      let t := runMain rest
      (r.msg :: t.1, t.2)
    else ([r.msg], -1)

/-- Spec-side brace matching, following the words of the specification:
from the opening `{` (depth 1), each `{` increments and each `}` decrements
a (non-wrapping) depth counter; returns the absolute index of the `}` that
restores depth to zero.  `rest` is the suffix just after the opening brace
and `i` the absolute index of its first byte. -/
def specClose (rest : List Char) (i d : Nat) : Option Nat :=
  match rest with
  | [] => none
  | c :: rs =>
    if c = '}' then (if d = 1 then some i else specClose rs (i + 1) (d - 1))
    else if c = '{' then specClose rs (i + 1) (d + 1)
    else specClose rs (i + 1) d

/-! ### Facts about `findSub` -/

theorem findSub_le {hay tok : List Char} {p : Nat} (h : findSub hay tok = some p) :
    p ≤ hay.length := by
  induction hay generalizing p with
  | nil =>
    rw [findSub] at h
    split at h
    · simp only [Option.some.injEq] at h
      omega
    · simp at h
  | cons c t ih =>
    rw [findSub] at h
    split at h
    · simp only [Option.some.injEq] at h
      omega
    · simp only [Option.map_eq_some'] at h
      obtain ⟨a, ha, rfl⟩ := h
      have := ih ha
      simp only [List.length_cons]
      omega

theorem findSub_isPre {hay tok : List Char} {p : Nat} (h : findSub hay tok = some p) :
    tok.isPrefixOf (hay.drop p) = true := by
  induction hay generalizing p with
  | nil =>
    rw [findSub] at h
    split at h
    next hc =>
      simp only [Option.some.injEq] at h
      subst h
      simpa using hc
    next => simp at h
  | cons c t ih =>
    rw [findSub] at h
    split at h
    next hc =>
      simp only [Option.some.injEq] at h
      subst h
      simpa using hc
    next =>
      simp only [Option.map_eq_some'] at h
      obtain ⟨a, ha, rfl⟩ := h
      simpa [List.drop_succ_cons] using ih ha

theorem findSub_min {hay tok : List Char} {p : Nat} (h : findSub hay tok = some p) :
    ∀ q, q < p → tok.isPrefixOf (hay.drop q) = false := by
  induction hay generalizing p with
  | nil =>
    intro q hq
    rw [findSub] at h
    split at h
    · simp only [Option.some.injEq] at h
      omega
    · simp at h
  | cons c t ih =>
    intro q hq
    rw [findSub] at h
    split at h
    · simp only [Option.some.injEq] at h
      omega
    next hc =>
      simp only [Option.map_eq_some'] at h
      obtain ⟨a, ha, rfl⟩ := h
      cases q with
      | zero =>
        simpa only [List.drop_zero, Bool.not_eq_true] using hc
      | succ q' =>
        simpa [List.drop_succ_cons] using ih ha q' (by omega)

theorem findSub_none {hay tok : List Char} (h : findSub hay tok = none) :
    ∀ q, tok.isPrefixOf (hay.drop q) = false := by
  induction hay with
  | nil =>
    intro q
    rw [findSub] at h
    split at h
    · simp at h
    next hc =>
      simpa only [List.drop_nil, Bool.not_eq_true] using hc
  | cons c t ih =>
    intro q
    rw [findSub] at h
    split at h
    · simp at h
    next hc =>
      simp only [Option.map_eq_none'] at h
      cases q with
      | zero => simpa only [List.drop_zero, Bool.not_eq_true] using hc
      | succ q' => simpa [List.drop_succ_cons] using ih h q'

/-! ### Basic facts about `Apply` -/

theorem Apply_cons_none {file : List Char} {d : Descriptor} (rest : List Descriptor)
    (h : applyOne file d = none) : Apply file (d :: rest) = (file, d.token) := by
  simp [Apply, h]

theorem Apply_cons_some {file file' : List Char} {d : Descriptor} (rest : List Descriptor)
    (h : applyOne file d = some file') : Apply file (d :: rest) = Apply file' rest := by
  simp [Apply, h]

theorem Apply_of_allOk {descs : List Descriptor} :
    ∀ {file res : List Char}, ApplyAllOk file descs = some res → Apply file descs = (res, []) := by
  induction descs with
  | nil =>
    intro file res h
    simp only [ApplyAllOk, Option.some.injEq] at h
    simp [Apply, h]
  | cons d ds ih =>
    intro file res h
    simp only [ApplyAllOk, Option.bind_eq_some] at h
    obtain ⟨f1, hf1, hrest⟩ := h
    rw [Apply_cons_some ds hf1]
    exact ih hrest

/-- A `ReplaceOne` descriptor on a buffer where the token occurs at first position `pos`. -/
theorem replaceOne_found {file tok : List Char} {pos : Nat} (rep : List Char)
    (h : findSub file tok = some pos) :
    applyOne file ⟨.ReplaceOne, tok, rep⟩ =
      some (file.take pos ++ rep ++ file.drop (pos + tok.length)) := by
  simp [applyOne, h]

/-- A `ReplaceOne` descriptor on a buffer where the token does not occur. -/
theorem replaceOne_missed {file tok : List Char} (rep : List Char)
    (h : findSub file tok = none) :
    applyOne file ⟨.ReplaceOne, tok, rep⟩ = none := by
  simp [applyOne, h]

/-! ### Facts about `braceScan` -/

theorem U64_pos : 0 < U64 := by norm_num [U64]

theorem U64_big : 2 ≤ U64 := by norm_num [U64]

theorem braceScan_nil (i b : Nat) (fb : Bool) (d : Nat) :
    braceScan [] i b fb d = (b, i) := by
  rw [braceScan.eq_def]
  split
  · rfl
  · rfl

/-- The loop exits immediately once `foundBegin` is set and depth is zero. -/
theorem braceScan_exit (rest : List Char) (i b : Nat) :
    braceScan rest i b true 0 = (b, i) := by
  rw [braceScan.eq_def]
  simp

theorem braceScan_step_t (c : Char) (rs : List Char) (i b d : Nat) (hd : d ≠ 0) :
    braceScan (c :: rs) i b true d =
      if c = '{' then braceScan rs (i + 1) b true ((d + 1) % U64)
      else if c = '}' then braceScan rs (i + 1) b true ((d + (U64 - 1)) % U64)
      else braceScan rs (i + 1) b true d := by
  rw [braceScan.eq_def, if_neg (by simp [hd])]
  rfl

theorem braceScan_step_f (c : Char) (rs : List Char) (i b d : Nat) :
    braceScan (c :: rs) i b false d =
      if c = '{' then braceScan rs (i + 1) i true ((d + 1) % U64)
      else if c = '}' then braceScan rs (i + 1) b false ((d + (U64 - 1)) % U64)
      else braceScan rs (i + 1) b false d := rfl

theorem specClose_cons (c : Char) (rs : List Char) (i d : Nat) :
    specClose (c :: rs) i d =
      if c = '}' then (if d = 1 then some i else specClose rs (i + 1) (d - 1))
      else if c = '{' then specClose rs (i + 1) (d + 1)
      else specClose rs (i + 1) d := rfl

/-- With `foundBegin` set, the scan never changes `begin` and only moves
`end` forward, at most to the end of the haystack. -/
theorem braceScan_true (rest : List Char) : ∀ i b d : Nat,
    (braceScan rest i b true d).1 = b ∧
    i ≤ (braceScan rest i b true d).2 ∧
    (braceScan rest i b true d).2 ≤ i + rest.length := by
  induction rest with
  | nil =>
    intro i b d
    rw [braceScan_nil]
    simp
  | cons c rs ih =>
    intro i b d
    by_cases hd : d = 0
    · subst hd
      rw [braceScan_exit]
      simp
    · rw [braceScan_step_t c rs i b d hd]
      by_cases hc1 : c = '{'
      · rw [if_pos hc1]
        obtain ⟨h1, h2, h3⟩ := ih (i + 1) b ((d + 1) % U64)
        refine ⟨h1, by omega, ?_⟩
        simp only [List.length_cons]
        omega
      · rw [if_neg hc1]
        by_cases hc2 : c = '}'
        · rw [if_pos hc2]
          obtain ⟨h1, h2, h3⟩ := ih (i + 1) b ((d + (U64 - 1)) % U64)
          refine ⟨h1, by omega, ?_⟩
          simp only [List.length_cons]
          omega
        · rw [if_neg hc2]
          obtain ⟨h1, h2, h3⟩ := ih (i + 1) b d
          refine ⟨h1, by omega, ?_⟩
          simp only [List.length_cons]
          omega

/-- With `foundBegin` not yet set, the scan either runs off the end of the
haystack with `begin` untouched, or it finds an opening brace and ends up
with `i ≤ begin < end ≤ i + rest.length`. -/
theorem braceScan_false (rest : List Char) : ∀ i b d : Nat,
    braceScan rest i b false d = (b, i + rest.length) ∨
    (i ≤ (braceScan rest i b false d).1 ∧
     (braceScan rest i b false d).1 < (braceScan rest i b false d).2 ∧
     (braceScan rest i b false d).2 ≤ i + rest.length) := by
  induction rest with
  | nil =>
    intro i b d
    left
    rw [braceScan_nil]
    simp
  | cons c rs ih =>
    intro i b d
    rw [braceScan_step_f]
    by_cases hc1 : c = '{'
    · right
      rw [if_pos hc1]
      obtain ⟨h1, h2, h3⟩ := braceScan_true rs (i + 1) i ((d + 1) % U64)
      refine ⟨by omega, by omega, ?_⟩
      simp only [List.length_cons]
      omega
    · rw [if_neg hc1]
      by_cases hc2 : c = '}'
      · rw [if_pos hc2]
        rcases ih (i + 1) b ((d + (U64 - 1)) % U64) with h | ⟨h1, h2, h3⟩
        · left
          rw [h]
          simp only [List.length_cons, Prod.mk.injEq]
          exact ⟨trivial, by omega⟩
        · right
          refine ⟨by omega, by omega, ?_⟩
          simp only [List.length_cons]
          omega
      · rw [if_neg hc2]
        rcases ih (i + 1) b d with h | ⟨h1, h2, h3⟩
        · left
          rw [h]
          simp only [List.length_cons, Prod.mk.injEq]
          exact ⟨trivial, by omega⟩
        · right
          refine ⟨by omega, by omega, ?_⟩
          simp only [List.length_cons]
          omega

/-- Before the opening brace is found, bytes that are neither `{` nor `}`
are skipped without any state change. -/
theorem braceScan_skip (pre : List Char) (hpre : ∀ c ∈ pre, c ≠ '{' ∧ c ≠ '}') :
    ∀ (rest : List Char) (i b d : Nat),
    braceScan (pre ++ rest) i b false d = braceScan rest (i + pre.length) b false d := by
  induction pre with
  | nil => simp
  | cons c cs ih =>
    intro rest i b d
    have hc := hpre c (by simp)
    rw [List.cons_append, braceScan_step_f, if_neg hc.1, if_neg hc.2]
    rw [ih (fun x hx => hpre x (by simp [hx])) rest (i + 1) b d]
    congr 1
    simp only [List.length_cons]
    omega

/-- After the opening brace (depth `d ≥ 1`, `foundBegin` set), the code's
wrapping `size_t` scan agrees with the specification's plain counter: it
stops one byte past the `}` found by `specClose`, or runs to the end of the
haystack if there is none. -/
theorem braceScan_close (rest : List Char) : ∀ i b d : Nat, 1 ≤ d → d + rest.length < U64 →
    braceScan rest i b true d =
      (b, (specClose rest i d).elim (i + rest.length) (· + 1)) := by
  induction rest with
  | nil =>
    intro i b d hd _
    rw [braceScan_nil, specClose]
    simp
  | cons c rs ih =>
    intro i b d hd hU
    have hUpos := U64_pos
    simp only [List.length_cons] at hU
    rw [braceScan_step_t c rs i b d (by omega), specClose_cons]
    by_cases hc2 : c = '}'
    · have hc1 : ¬(c = '{') := by
        subst hc2
        decide
      simp only [if_neg hc1, if_pos hc2]
      have hdrop : (d + (U64 - 1)) % U64 = d - 1 := by
        have h1 : d + (U64 - 1) = (d - 1) + U64 := by omega
        rw [h1, Nat.add_mod_right]
        exact Nat.mod_eq_of_lt (by omega)
      rw [hdrop]
      by_cases hd1 : d = 1
      · rw [if_pos hd1]
        subst hd1
        rw [show (1 : Nat) - 1 = 0 from rfl, braceScan_exit]
        simp
      · rw [if_neg hd1]
        rw [ih (i + 1) b (d - 1) (by omega) (by omega)]
        cases h : specClose rs (i + 1) (d - 1) with
        | none =>
          simp only [h, Option.elim_none, List.length_cons, Prod.mk.injEq]
          exact ⟨trivial, by omega⟩
        | some e => simp [h]
    · by_cases hc1 : c = '{'
      · simp only [if_pos hc1, if_neg hc2]
        have hinc : (d + 1) % U64 = d + 1 := Nat.mod_eq_of_lt (by omega)
        rw [hinc]
        rw [ih (i + 1) b (d + 1) (by omega) (by omega)]
        cases h : specClose rs (i + 1) (d + 1) with
        | none =>
          simp only [h, Option.elim_none, List.length_cons, Prod.mk.injEq]
          exact ⟨trivial, by omega⟩
        | some e => simp [h]
      · simp only [if_neg hc1, if_neg hc2]
        rw [ih (i + 1) b d (by omega) (by omega)]
        cases h : specClose rs (i + 1) d with
        | none =>
          simp only [h, Option.elim_none, List.length_cons, Prod.mk.injEq]
          exact ⟨trivial, by omega⟩
        | some e => simp [h]

/-! ### Facts about `FindExplicitFunctionBody` and `applyOne` -/

theorem FindEF_none {hay nm : List Char} (hf : findSub hay (anchorOf nm) = none) :
    FindExplicitFunctionBody hay nm = (0, 0) := by
  rw [FindExplicitFunctionBody, hf]

theorem FindEF_some {hay nm : List Char} {p : Nat} (hf : findSub hay (anchorOf nm) = some p) :
    FindExplicitFunctionBody hay nm =
      (if (braceScan (hay.drop p) p p false 0).2 = hay.length then (0, 0)
       else braceScan (hay.drop p) p p false 0) := by
  rw [FindExplicitFunctionBody, hf]

/-- When the anchor is present and the scan's final `end` is not the
haystack length, the scan result satisfies `p ≤ begin < end ≤ length`. -/
theorem FindEF_success {hay nm : List Char} {p : Nat}
    (hf : findSub hay (anchorOf nm) = some p)
    (hne : (braceScan (hay.drop p) p p false 0).2 ≠ hay.length) :
    p ≤ (braceScan (hay.drop p) p p false 0).1 ∧
    (braceScan (hay.drop p) p p false 0).1 < (braceScan (hay.drop p) p p false 0).2 ∧
    (braceScan (hay.drop p) p p false 0).2 ≤ hay.length := by
  have hple := findSub_le hf
  rcases braceScan_false (hay.drop p) p p 0 with hs | ⟨hs1, hs2, hs3⟩
  · exfalso
    apply hne
    rw [hs, List.length_drop]
    omega
  · refine ⟨hs1, hs2, ?_⟩
    rw [List.length_drop] at hs3
    omega

/-- Any list splits as `take a ++ (middle of length ≤ k ++ drop (a + k))`. -/
theorem split3 (l : List Char) (a k : Nat) :
    l = l.take a ++ (l.drop a).take k ++ l.drop (a + k) := by
  rw [List.append_assoc]
  have h2 : l.drop a = (l.drop a).take k ++ l.drop (a + k) := by
    conv_lhs => rw [← List.take_append_drop k (l.drop a)]
    rw [List.drop_drop]
  rw [← h2, List.take_append_drop]

theorem applyOne_substStep {file f' : List Char} {d : Descriptor}
    (h : applyOne file d = some f') : SubstStep d.replacement file f' := by
  obtain ⟨ty, tok, rep⟩ := d
  cases ty with
  | ReplaceOne =>
    simp only [applyOne] at h
    cases hf : findSub file tok with
    | none =>
      rw [hf] at h
      simp at h
    | some pos =>
      rw [hf] at h
      simp only [Option.some.injEq] at h
      subst h
      exact ⟨file.take pos, (file.drop pos).take tok.length, file.drop (pos + tok.length),
        split3 file pos tok.length, rfl⟩
  | ExplicitFunction =>
    simp only [applyOne] at h
    by_cases hz : (FindExplicitFunctionBody file tok).1 = 0 ∨ (FindExplicitFunctionBody file tok).2 = 0
    · rw [if_pos hz] at h
      simp at h
    · rw [if_neg hz] at h
      simp only [Option.some.injEq] at h
      subst h
      push_neg at hz
      cases hfind : findSub file (anchorOf tok) with
      | none =>
        rw [FindEF_none hfind] at hz
        simp at hz
      | some p =>
        have hEF := FindEF_some hfind
        by_cases hlen : (braceScan (file.drop p) p p false 0).2 = file.length
        · rw [if_pos hlen] at hEF
          rw [hEF] at hz
          simp at hz
        · rw [if_neg hlen] at hEF
          obtain ⟨hb1, hb2, hb3⟩ := FindEF_success hfind hlen
          rw [hEF]
          have hsplit := split3 file (braceScan (file.drop p) p p false 0).1
            ((braceScan (file.drop p) p p false 0).2 - (braceScan (file.drop p) p p false 0).1)
          rw [show (braceScan (file.drop p) p p false 0).1 +
              ((braceScan (file.drop p) p p false 0).2 - (braceScan (file.drop p) p p false 0).1) =
              (braceScan (file.drop p) p p false 0).2 from by omega] at hsplit
          exact ⟨file.take (braceScan (file.drop p) p p false 0).1,
            (file.drop (braceScan (file.drop p) p p false 0).1).take
              ((braceScan (file.drop p) p p false 0).2 - (braceScan (file.drop p) p p false 0).1),
            file.drop (braceScan (file.drop p) p p false 0).2, hsplit, rfl⟩

theorem allOk_appliedAll {descs : List Descriptor} :
    ∀ {file res : List Char}, ApplyAllOk file descs = some res → AppliedAll descs file res := by
  induction descs with
  | nil =>
    intro file res h
    simp only [ApplyAllOk, Option.some.injEq] at h
    subst h
    exact .nil _
  | cons d ds ih =>
    intro file res h
    simp only [ApplyAllOk, Option.bind_eq_some] at h
    obtain ⟨f1, hf1, hrest⟩ := h
    exact .cons d ds file f1 res (applyOne_substStep hf1) (ih hrest)

theorem Apply_append_fail (ds1 : List Descriptor) (d : Descriptor) (ds2 : List Descriptor) :
    ∀ (file buf1 : List Char), ApplyAllOk file ds1 = some buf1 → applyOne buf1 d = none →
    Apply file (ds1 ++ d :: ds2) = (buf1, d.token) := by
  induction ds1 with
  | nil =>
    intro file buf1 h1 h2
    simp only [ApplyAllOk, Option.some.injEq] at h1
    subst h1
    simpa using Apply_cons_none ds2 h2
  | cons d0 ds0 ih =>
    intro file buf1 h1 h2
    simp only [ApplyAllOk, Option.bind_eq_some] at h1
    obtain ⟨f1, hf1, hrest⟩ := h1
    rw [List.cons_append, Apply_cons_some _ hf1]
    exact ih f1 buf1 hrest h2

/-! ### Facts about `ReadFileUTF8` -/

theorem takeWhile_append_nul (p : Char → Bool) (hnul : p nulChar = false) :
    ∀ l : List Char, (l ++ [nulChar]).takeWhile p = l.takeWhile p := by
  intro l
  induction l with
  | nil => simp [List.takeWhile_cons, hnul]
  | cons c cs ih =>
    by_cases hc : p c
    · simp [List.takeWhile_cons, hc, ih]
    · simp [List.takeWhile_cons, hc]

theorem readFile_eq_takeWhile (bytes : List Char) :
    ReadFileUTF8 true bytes = bytes.takeWhile (fun c => c ≠ nulChar) := by
  rw [ReadFileUTF8, if_pos rfl]
  exact takeWhile_append_nul _ (by simp) bytes

theorem readFile_all (bytes : List Char) (h : nulChar ∉ bytes) :
    ReadFileUTF8 true bytes = bytes := by
  rw [readFile_eq_takeWhile]
  apply List.takeWhile_eq_self_iff.mpr
  intro x hx
  simp only [ne_eq, decide_eq_true_eq]
  intro he
  exact h (he ▸ hx)

theorem drop_takeWhile_head (p : Char → Bool) :
    ∀ l : List Char, l.drop (l.takeWhile p).length = [] ∨
      ∃ c cs, l.drop (l.takeWhile p).length = c :: cs ∧ p c = false := by
  intro l
  induction l with
  | nil =>
    left
    simp
  | cons c cs ih =>
    by_cases hc : p c
    · rcases ih with h | ⟨c0, cs0, h1, h2⟩
      · left
        simpa [List.takeWhile_cons, hc] using h
      · right
        exact ⟨c0, cs0, by simpa [List.takeWhile_cons, hc] using h1, h2⟩
    · right
      refine ⟨c, cs, ?_, by simpa only [Bool.not_eq_true] using hc⟩
      simp [List.takeWhile_cons, hc]

/-! ### Driver unfolding lemmas -/

theorem processFile_eq (j : FileJob) :
    processFile j =
      if ReadFileUTF8 j.readOk j.bytes = [] then ⟨.unableToRead j.path, false, false⟩
      else if (Apply (ReadFileUTF8 j.readOk j.bytes) j.descs).2 ≠ [] then
        ⟨.unableToApply j.path (Apply (ReadFileUTF8 j.readOk j.bytes) j.descs).2, false, false⟩
      else ⟨.patched j.path, true, true⟩ := rfl

theorem runMain_nil : runMain [] = ([], 0) := rfl

theorem runMain_cons (j : FileJob) (rest : List FileJob) :
    runMain (j :: rest) =
      if (processFile j).cont then
        ((processFile j).msg :: (runMain rest).1, (runMain rest).2)
      else ([(processFile j).msg], -1) := rfl

/-! ### The claims -/

/-- Claim C8: applying a `ReplaceOne` descriptor with an empty token
succeeds on every buffer: it matches at position 0 with a zero-length match
and inserts the replacement at the start, every original byte following it
unchanged. -/
theorem c8_replaceOne_empty_token (buf rep : List Char) :
    Apply buf [⟨.ReplaceOne, [], rep⟩] = (rep ++ buf, []) := by
  have hf : findSub buf [] = some 0 := by
    rw [findSub.eq_def]
    simp
  rw [Apply_cons_some [] (replaceOne_found rep hf)]
  simp [Apply]

/-- Claim C4: if every descriptor before `d` matches and `d` is the first
to fail, `Apply` returns `d`'s token verbatim, the buffer keeps exactly the
effects of the earlier descriptors, and the descriptors from `d` onward
mutate nothing (the result ignores `ds2`). -/
theorem c4_first_failure (ds1 : List Descriptor) (d : Descriptor) (ds2 : List Descriptor)
    (file buf1 : List Char) (h1 : ApplyAllOk file ds1 = some buf1)
    (h2 : applyOne buf1 d = none) :
    Apply file (ds1 ++ d :: ds2) = (buf1, d.token) :=
  Apply_append_fail ds1 d ds2 file buf1 h1 h2

/-- Witness for C4: the spec's stop-at-first-failure scenario on buffer
`AB`. -/
theorem c4_witness :
    Apply "AB".data [⟨.ReplaceOne, "A".data, "A1".data⟩, ⟨.ReplaceOne, "Z".data, "Z1".data⟩,
      ⟨.ReplaceOne, "B".data, "B1".data⟩] = ("A1B".data, "Z".data) := by
  have h := c4_first_failure [⟨.ReplaceOne, "A".data, "A1".data⟩]
    ⟨.ReplaceOne, "Z".data, "Z1".data⟩ [⟨.ReplaceOne, "B".data, "B1".data⟩]
    "AB".data "A1B".data (by decide) (by decide)
  exact h

/-- Claim C5: `ReplaceOne` replaces exactly the first occurrence of the
token (position `p`), leaves the bytes before it and after the replaced
span unchanged (so all later occurrences persist, shifted by the length
difference), and a second application to the result replaces the first
occurrence remaining in the result, or fails if none remains. -/
theorem c5_replaceOne_first (buf tok rep : List Char) (p : Nat)
    (h : findSub buf tok = some p) :
    tok.isPrefixOf (buf.drop p) = true ∧
    (∀ q, q < p → tok.isPrefixOf (buf.drop q) = false) ∧
    Apply buf [⟨.ReplaceOne, tok, rep⟩] =
      (buf.take p ++ rep ++ buf.drop (p + tok.length), []) ∧
    (buf.take p ++ rep ++ buf.drop (p + tok.length)).take p = buf.take p ∧
    (buf.take p ++ rep ++ buf.drop (p + tok.length)).drop (p + rep.length) =
      buf.drop (p + tok.length) ∧
    (∀ q, p + tok.length ≤ q → tok.isPrefixOf (buf.drop q) = true →
      tok.isPrefixOf ((buf.take p ++ rep ++ buf.drop (p + tok.length)).drop
        (q - tok.length + rep.length)) = true) ∧
    (∀ p2, findSub (buf.take p ++ rep ++ buf.drop (p + tok.length)) tok = some p2 →
      Apply (buf.take p ++ rep ++ buf.drop (p + tok.length)) [⟨.ReplaceOne, tok, rep⟩] =
        ((buf.take p ++ rep ++ buf.drop (p + tok.length)).take p2 ++ rep ++
          (buf.take p ++ rep ++ buf.drop (p + tok.length)).drop (p2 + tok.length), [])) ∧
    (findSub (buf.take p ++ rep ++ buf.drop (p + tok.length)) tok = none →
      Apply (buf.take p ++ rep ++ buf.drop (p + tok.length)) [⟨.ReplaceOne, tok, rep⟩] =
        (buf.take p ++ rep ++ buf.drop (p + tok.length), tok)) := by
  have hple : p ≤ buf.length := findSub_le h
  have hlen : (buf.take p).length = p := by
    rw [List.length_take]
    omega
  have hdrop5 : (buf.take p ++ rep ++ buf.drop (p + tok.length)).drop (p + rep.length) =
      buf.drop (p + tok.length) := by
    apply List.drop_left'
    rw [List.length_append, hlen]
  refine ⟨findSub_isPre h, findSub_min h, ?_, ?_, hdrop5, ?_, ?_, ?_⟩
  · rw [Apply_cons_some [] (replaceOne_found rep h)]
    simp [Apply]
  · rw [List.append_assoc]
    rw [List.take_left' hlen]
  · intro q hq hocc
    have e1 : q - tok.length + rep.length = p + rep.length + (q - (p + tok.length)) := by
      omega
    rw [e1, ← List.drop_drop, hdrop5, List.drop_drop,
      show p + tok.length + (q - (p + tok.length)) = q from by omega]
    exact hocc
  · intro p2 hp2
    rw [Apply_cons_some [] (replaceOne_found rep hp2)]
    simp [Apply]
  · intro hn
    exact Apply_cons_none [] (replaceOne_missed rep hn)

/-- Witness for C5: the spec's simple-replace scenario `aXbXc`, including
the second application. -/
theorem c5_witness :
    Apply "aXbXc".data [⟨.ReplaceOne, "X".data, "YY".data⟩] = ("aYYbXc".data, []) ∧
    Apply "aYYbXc".data [⟨.ReplaceOne, "X".data, "YY".data⟩] = ("aYYbYYc".data, []) := by
  have h := c5_replaceOne_first "aXbXc".data "X".data "YY".data 1 (by decide)
  exact ⟨h.2.2.1.trans (by decide), by decide⟩

/-- Claim C6: on a run where every descriptor matches (the spec's success
outcome, under which `Apply` returns the empty token), the final buffer is
obtained by exactly one substring substitution per descriptor, in order,
with all bytes outside the replaced spans unchanged. -/
theorem c6_one_subst_per_descriptor (file res : List Char) (descs : List Descriptor)
    (h : ApplyAllOk file descs = some res) :
    Apply file descs = (res, []) ∧ AppliedAll descs file res :=
  ⟨Apply_of_allOk h, allOk_appliedAll h⟩

/-- Witness for C6: the spec's function-body-replace scenario. -/
theorem c6_witness :
    Apply "x; function foo(a,b) \x7b if(a)\x7bb();\x7d return 1; \x7d y".data
        [⟨.ExplicitFunction, "foo".data, "\x7breturn 0;\x7d".data⟩] =
      ("x; function foo(a,b) \x7breturn 0;\x7d y".data, []) ∧
    AppliedAll [⟨.ExplicitFunction, "foo".data, "\x7breturn 0;\x7d".data⟩]
      "x; function foo(a,b) \x7b if(a)\x7bb();\x7d return 1; \x7d y".data
      "x; function foo(a,b) \x7breturn 0;\x7d y".data :=
  c6_one_subst_per_descriptor _ _ _ (by decide)

/-- Claim C9: `Apply` signals failure through the returned token, so an
`ExplicitFunction` descriptor with an empty token that fails (anchor
`function (` absent) returns the empty view — the success signal.  The
driver then treats the file as fully patched: it prints the success line
and persists the (unchanged) buffer. -/
theorem c9_empty_token_indistinguishable (buf rep : List Char)
    (hnul : nulChar ∉ buf) (hne : buf ≠ [])
    (hanchor : findSub buf (anchorOf []) = none) :
    Apply buf [⟨.ExplicitFunction, [], rep⟩] = (buf, []) ∧
    (∀ path wOk, processFile ⟨path, true, buf, [⟨.ExplicitFunction, [], rep⟩], wOk⟩ =
      ⟨.patched path, true, true⟩) := by
  have hfail : applyOne buf ⟨.ExplicitFunction, [], rep⟩ = none := by
    simp only [applyOne]
    rw [FindEF_none hanchor]
    simp
  have happ : Apply buf [⟨.ExplicitFunction, [], rep⟩] = (buf, []) :=
    Apply_cons_none [] hfail
  refine ⟨happ, fun path wOk => ?_⟩
  rw [processFile_eq]
  simp only [readFile_all buf hnul]
  rw [if_neg hne, happ]
  simp

/-- Witness for C9: buffer `abc`, which does not contain the anchor
`function (`. -/
theorem c9_witness :
    Apply "abc".data [⟨.ExplicitFunction, [], "\x7b\x7d".data⟩] = ("abc".data, []) ∧
    processFile ⟨"p".data, true, "abc".data, [⟨.ExplicitFunction, [], "\x7b\x7d".data⟩], false⟩ =
      ⟨.patched "p".data, true, true⟩ := by
  have h := c9_empty_token_indistinguishable "abc".data "\x7b\x7d".data
    (by decide) (by decide) (by decide)
  exact ⟨h.1, h.2 "p".data false⟩

/-- Claim C10: the driver discards `WriteFileUTF8`'s return value: the
per-file outcome does not depend on it at all, so a file whose write fails
is still reported with the `Patched file:(...)` line, and if every file's
patches apply the run exits with status 0 whatever the write results. -/
theorem c10_write_result_ignored (jobs : List FileJob)
    (h : ∀ j ∈ jobs, ReadFileUTF8 j.readOk j.bytes ≠ [] ∧
      (Apply (ReadFileUTF8 j.readOk j.bytes) j.descs).2 = []) :
    runMain jobs = (jobs.map (fun j => Msg.patched j.path), 0) ∧
    (∀ j ∈ jobs, processFile j = ⟨.patched j.path, true, true⟩) ∧
    (∀ (path : List Char) (readOk : Bool) (bytes : List Char) (descs : List Descriptor)
      (w1 w2 : Bool), processFile ⟨path, readOk, bytes, descs, w1⟩ =
        processFile ⟨path, readOk, bytes, descs, w2⟩) := by
  have hpf : ∀ j ∈ jobs, processFile j = ⟨.patched j.path, true, true⟩ := by
    intro j hj
    obtain ⟨h1, h2⟩ := h j hj
    rw [processFile_eq, if_neg h1]
    simp [h2]
  refine ⟨?_, hpf, fun _ _ _ _ _ _ => rfl⟩
  have hrun : ∀ js : List FileJob,
      (∀ j ∈ js, processFile j = ⟨.patched j.path, true, true⟩) →
      runMain js = (js.map (fun j => Msg.patched j.path), 0) := by
    intro js
    induction js with
    | nil => intro _; rfl
    | cons j0 rest ih =>
      intro hj
      rw [runMain_cons, hj j0 (by simp), ih (fun k hk => hj k (List.mem_cons_of_mem _ hk))]
      simp
  exact hrun jobs hpf

/-- Witness for C10: a single job whose write fails (`writeOk = false`) is
still reported patched and the run exits 0. -/
theorem c10_witness :
    runMain [⟨"p".data, true, "a".data, [], false⟩] = ([Msg.patched "p".data], 0) ∧
    processFile ⟨"p".data, true, "a".data, [], false⟩ = ⟨.patched "p".data, true, true⟩ := by
  have h := c10_write_result_ignored [⟨"p".data, true, "a".data, [], false⟩] (by decide)
  exact ⟨by simpa using h.1, h.2.1 _ (by simp)⟩

/-- Claim C7: when the engine reports a patch miss on a file (a nonempty
failing token), the driver prints the token together with the path, exits
with the non-zero status `-1`, and never calls `WriteFileUTF8` for that
file, leaving it on disk unchanged.  Earlier files processed in the run
keep their success lines. -/
theorem c7_miss_not_persisted (pre : List FileJob) (j : FileJob) (post : List FileJob)
    (t : List Char)
    (hpre : ∀ k ∈ pre, processFile k = ⟨.patched k.path, true, true⟩)
    (hread : ReadFileUTF8 j.readOk j.bytes ≠ [])
    (ht : (Apply (ReadFileUTF8 j.readOk j.bytes) j.descs).2 = t) (htne : t ≠ []) :
    processFile j = ⟨.unableToApply j.path t, false, false⟩ ∧
    runMain (pre ++ j :: post) =
      ((pre.map fun k => Msg.patched k.path) ++ [Msg.unableToApply j.path t], -1) ∧
    (runMain (pre ++ j :: post)).2 ≠ 0 := by
  have hj : processFile j = ⟨.unableToApply j.path t, false, false⟩ := by
    rw [processFile_eq, if_neg hread, ht, if_pos htne]
  have hrun : ∀ ps : List FileJob,
      (∀ k ∈ ps, processFile k = ⟨.patched k.path, true, true⟩) →
      runMain (ps ++ j :: post) =
        ((ps.map fun k => Msg.patched k.path) ++ [Msg.unableToApply j.path t], -1) := by
    intro ps
    induction ps with
    | nil =>
      intro _
      rw [List.nil_append, runMain_cons, hj]
      simp
    | cons k ps' ih =>
      intro hp
      rw [List.cons_append, runMain_cons, hp k (by simp),
        ih (fun x hx => hp x (List.mem_cons_of_mem _ hx))]
      simp
  refine ⟨hj, hrun pre hpre, ?_⟩
  rw [hrun pre hpre]
  simp

/-- Witness for C7: one successful file followed by a file whose only
descriptor misses (spec's replace-miss scenario, token `Z`). -/
theorem c7_witness :
    runMain [⟨"p1".data, true, "a".data, [], true⟩,
      ⟨"p2".data, true, "abc".data, [⟨.ReplaceOne, "Z".data, "!".data⟩], true⟩] =
      ([Msg.patched "p1".data, Msg.unableToApply "p2".data "Z".data], -1) ∧
    processFile ⟨"p2".data, true, "abc".data, [⟨.ReplaceOne, "Z".data, "!".data⟩], true⟩ =
      ⟨.unableToApply "p2".data "Z".data, false, false⟩ := by
  have h := c7_miss_not_persisted [⟨"p1".data, true, "a".data, [], true⟩]
    ⟨"p2".data, true, "abc".data, [⟨.ReplaceOne, "Z".data, "!".data⟩], true⟩ []
    "Z".data (by decide) (by decide) (by decide) (by decide)
  exact ⟨by simpa using h.2.1, h.1⟩

/-- Counterexample to C1: on the spec's own nested-braces scenario
`"function g() \x7b \x7b\x7b\x7d\x7d \x7d"` the code FAILS with token `g`
instead of producing `"function g() \x7b\x7d"`.  The brace restoring depth
to zero is the buffer's last byte, so after the loop's final `++end` the
`end == haystack.size()` check rejects the match. -/
theorem c1_counterexample :
    Apply "function g() \x7b \x7b\x7b\x7d\x7d \x7d".data
        [⟨.ExplicitFunction, "g".data, "\x7b\x7d".data⟩] =
      ("function g() \x7b \x7b\x7b\x7d\x7d \x7d".data, "g".data) ∧
    Apply "function g() \x7b \x7b\x7b\x7d\x7d \x7d".data
        [⟨.ExplicitFunction, "g".data, "\x7b\x7d".data⟩] ≠
      ("function g() \x7b\x7d".data, []) :=
  ⟨by decide, by decide⟩

/-- Claim C1 (amended): when the anchor is absent, `Apply` fails with the
token and an unchanged buffer.  When the anchor occurs at `p`, the scan's
final `end` never exceeds the buffer length; `Apply` fails exactly when
that `end` equals the buffer length — which happens both when depth never
returns to zero and when the depth-restoring brace is the buffer's final
byte — and otherwise succeeds, replacing the inclusive region from the
scan's `begin` (the first `\x7b` at or after the anchor) up to `end`. -/
theorem c1_explicit_function_outcome (hay name repl : List Char) :
    (findSub hay (anchorOf name) = none →
      Apply hay [⟨.ExplicitFunction, name, repl⟩] = (hay, name)) ∧
    (∀ p, findSub hay (anchorOf name) = some p →
      (braceScan (hay.drop p) p p false 0).2 ≤ hay.length ∧
      ((braceScan (hay.drop p) p p false 0).2 = hay.length →
        Apply hay [⟨.ExplicitFunction, name, repl⟩] = (hay, name)) ∧
      ((braceScan (hay.drop p) p p false 0).2 < hay.length →
        Apply hay [⟨.ExplicitFunction, name, repl⟩] =
          (hay.take (braceScan (hay.drop p) p p false 0).1 ++ repl ++
            hay.drop (braceScan (hay.drop p) p p false 0).2, []))) := by
  constructor
  · intro hf
    apply Apply_cons_none
    simp only [applyOne]
    rw [FindEF_none hf]
    simp
  · intro p hf
    have hple := findSub_le hf
    refine ⟨?_, ?_, ?_⟩
    · rcases braceScan_false (hay.drop p) p p 0 with hs | ⟨_, _, hs3⟩
      · rw [hs]
        show p + (hay.drop p).length ≤ hay.length
        rw [List.length_drop]
        omega
      · rw [List.length_drop] at hs3
        omega
    · intro heq
      apply Apply_cons_none
      simp only [applyOne]
      rw [FindEF_some hf, if_pos heq]
      simp
    · intro hlt
      have hne : (braceScan (hay.drop p) p p false 0).2 ≠ hay.length := by omega
      obtain ⟨hb1, hb2, hb3⟩ := FindEF_success hf hne
      have hEF : FindExplicitFunctionBody hay name = braceScan (hay.drop p) p p false 0 := by
        rw [FindEF_some hf, if_neg hne]
      have hpr := findSub_isPre hf
      simp only [ List.isPrefixOf_iff_prefix] at hpr
      obtain ⟨t, ht⟩ := hpr
      have hhead : hay.drop p = 'f' :: ("unction ".data ++ name ++ "(".data ++ t) := by
        rw [← ht]
        rfl
      have hb0 : p < (braceScan (hay.drop p) p p false 0).1 := by
        have hstep : braceScan (hay.drop p) p p false 0 =
            braceScan ("unction ".data ++ name ++ "(".data ++ t) (p + 1) p false 0 := by
          rw [hhead, braceScan_step_f, if_neg (by decide), if_neg (by decide)]
        rcases braceScan_false ("unction ".data ++ name ++ "(".data ++ t) (p + 1) p 0 with
          hs | ⟨hs1, _, _⟩
        · exfalso
          apply hne
          rw [hstep, hs]
          show p + 1 + ("unction ".data ++ name ++ "(".data ++ t).length = hay.length
          have hlens := congrArg List.length hhead
          rw [List.length_drop, List.length_cons] at hlens
          omega
        · rw [hstep]
          omega
      have hap : applyOne hay ⟨.ExplicitFunction, name, repl⟩ =
          some (hay.take (braceScan (hay.drop p) p p false 0).1 ++ repl ++
            hay.drop (braceScan (hay.drop p) p p false 0).2) := by
        simp only [applyOne]
        rw [hEF, if_neg (by omega :
          ¬((braceScan (hay.drop p) p p false 0).1 = 0 ∨
            (braceScan (hay.drop p) p p false 0).2 = 0))]
      rw [Apply_cons_some [] hap]
      rfl

/-- Witness for C1 (amended): the nested-braces scenario with one byte
appended after the function, where the replacement does go through. -/
theorem c1_witness :
    Apply "function g() \x7b \x7b\x7b\x7d\x7d \x7d;".data
        [⟨.ExplicitFunction, "g".data, "\x7b\x7d".data⟩] =
      ("function g() \x7b\x7d;".data, []) := by
  have h := ((c1_explicit_function_outcome "function g() \x7b \x7b\x7b\x7d\x7d \x7d;".data
    "g".data "\x7b\x7d".data).2 0 (by decide)).2.2 (by decide)
  exact h.trans (by decide)

/-- Counterexample to C2: a `\x7d` between the anchor and the first `\x7b`
decrements the `size_t` depth counter, wrapping it to `2 ^ 64 - 1`; the
subsequent `\x7b` wraps it back to zero, so the scan stops at the opening
brace itself.  On `"function f() \x7d \x7b \x7d x"` the code replaces only
the single byte `\x7b` (yielding `"function f() \x7d R \x7d x"`), not the
region through the depth-restoring `\x7d` (which would yield
`"function f() \x7d R x"`). -/
theorem c2_counterexample :
    Apply "function f() \x7d \x7b \x7d x".data
        [⟨.ExplicitFunction, "f".data, "R".data⟩] =
      ("function f() \x7d R \x7d x".data, []) ∧
    ("function f() \x7d R \x7d x".data : List Char) ≠ "function f() \x7d R x".data :=
  ⟨by decide, by decide⟩

/-- Claim C2 (amended): provided no `\x7d` occurs between the matched
anchor and the first `\x7b` after it (and the closing brace is not the
buffer's final byte), the replaced region begins exactly at that first
`\x7b` and ends exactly at the `\x7d` that restores the depth counter to
zero, counting from the opening brace (`specClose`). -/
theorem c2_brace_balance (hay name repl : List Char) (p : Nat) (pre rest : List Char) (e : Nat)
    (hlen : hay.length < U64)
    (hfind : findSub hay (anchorOf name) = some p)
    (hsplit : hay.drop p = pre ++ '{' :: rest)
    (hno1 : '{' ∉ pre) (hno2 : '}' ∉ pre)
    (hclose : specClose rest (p + pre.length + 1) 1 = some e)
    (hlast : e + 1 < hay.length) :
    FindExplicitFunctionBody hay name = (p + pre.length, e + 1) ∧
    Apply hay [⟨.ExplicitFunction, name, repl⟩] =
      (hay.take (p + pre.length) ++ repl ++ hay.drop (e + 1), []) := by
  have hple := findSub_le hfind
  have hlens := congrArg List.length hsplit
  rw [List.length_drop] at hlens
  simp only [List.length_append, List.length_cons] at hlens
  have hpre : ∀ c ∈ pre, c ≠ '{' ∧ c ≠ '}' :=
    fun c hc => ⟨fun h => hno1 (h ▸ hc), fun h => hno2 (h ▸ hc)⟩
  have hscan : braceScan (hay.drop p) p p false 0 = (p + pre.length, e + 1) := by
    rw [hsplit, braceScan_skip pre hpre ('{' :: rest) p p 0]
    rw [braceScan_step_f, if_pos rfl]
    rw [show (0 + 1) % U64 = 1 from Nat.mod_eq_of_lt (by have := U64_big; omega)]
    rw [braceScan_close rest (p + pre.length + 1) (p + pre.length) 1 (by omega) (by omega)]
    rw [hclose]
    rfl
  have hne : (braceScan (hay.drop p) p p false 0).2 ≠ hay.length := by
    rw [hscan]
    show e + 1 ≠ hay.length
    omega
  have hEF : FindExplicitFunctionBody hay name = (p + pre.length, e + 1) := by
    rw [FindEF_some hfind, if_neg hne, hscan]
  have hb0 : p + pre.length ≠ 0 := by
    intro h0
    have hp0 : p = 0 := by omega
    have hpre0 : pre = [] := List.length_eq_zero.mp (by omega)
    have hpr := findSub_isPre hfind
    rw [hsplit, hpre0] at hpr
    simp only [List.nil_append, List.isPrefixOf_iff_prefix] at hpr
    obtain ⟨t, ht⟩ := hpr
    have hf' : (anchorOf name ++ t).head? = some 'f' := rfl
    rw [ht] at hf'
    simp at hf'
  have hap : applyOne hay ⟨.ExplicitFunction, name, repl⟩ =
      some (hay.take (p + pre.length) ++ repl ++ hay.drop (e + 1)) := by
    simp only [applyOne]
    rw [hEF, if_neg (by
      simp only [Prod.fst, Prod.snd]
      omega : ¬(((p + pre.length, e + 1) : Nat × Nat).1 = 0 ∨
        ((p + pre.length, e + 1) : Nat × Nat).2 = 0))]
  refine ⟨hEF, ?_⟩
  rw [Apply_cons_some [] hap]
  rfl

/-- Witness for C2 (amended): `"function f() \x7ba\x7d x"`, anchor at 0,
opening brace at index 13, closing brace at index 15. -/
theorem c2_witness :
    FindExplicitFunctionBody "function f() \x7ba\x7d x".data "f".data = (13, 16) ∧
    Apply "function f() \x7ba\x7d x".data [⟨.ExplicitFunction, "f".data, "R".data⟩] =
      ("function f() R x".data, []) := by
  have h := c2_brace_balance "function f() \x7ba\x7d x".data "f".data "R".data 0
    "function f() ".data "a\x7d x".data 15 (by decide) (by decide) (by decide)
    (by decide) (by decide) (by decide) (by decide)
  exact ⟨h.1.trans (by decide), h.2.trans (by decide)⟩

/-- Counterexample to C3: a file containing a NUL byte is truncated at that
byte — the NUL and everything after it never reach the buffer, because the
`const char *` of the byte vector is converted to `std::string`. -/
theorem c3_counterexample :
    ReadFileUTF8 true ['a', nulChar, 'b'] = ['a'] ∧
    ReadFileUTF8 true ['a', nulChar, 'b'] ≠ ['a', nulChar, 'b'] :=
  ⟨by decide, by decide⟩

/-- Claim C3 (amended): the driver reads the file in binary mode and the
buffer is the longest NUL-free prefix of the file's bytes: it is a prefix
of the file, contains no NUL, equals the whole file whenever the file
contains no NUL byte, and stops exactly at the first NUL otherwise. -/
theorem c3_read_nul_free_prefix (bytes : List Char) :
    (∃ rest, ReadFileUTF8 true bytes ++ rest = bytes) ∧
    (∀ c ∈ ReadFileUTF8 true bytes, c ≠ nulChar) ∧
    (nulChar ∉ bytes → ReadFileUTF8 true bytes = bytes) ∧
    (bytes.drop (ReadFileUTF8 true bytes).length = [] ∨
      (bytes.drop (ReadFileUTF8 true bytes).length).head? = some nulChar) := by
  refine ⟨?_, ?_, readFile_all bytes, ?_⟩
  · rw [readFile_eq_takeWhile]
    exact List.takeWhile_prefix _
  · intro c hc
    rw [readFile_eq_takeWhile] at hc
    have := List.mem_takeWhile_imp hc
    simpa using this
  · rcases drop_takeWhile_head (fun c => c ≠ nulChar) bytes with h | ⟨c, cs, h1, h2⟩
    · left
      rw [readFile_eq_takeWhile]
      exact h
    · right
      rw [readFile_eq_takeWhile, h1]
      simp only [decide_eq_false_iff_not, ne_eq, not_not] at h2
      rw [h2]
      rfl

/-- Witness for C3 (amended): a NUL-free file is read byte-for-byte. -/
theorem c3_witness : ReadFileUTF8 true "ab".data = "ab".data := by
  have h := c3_read_nul_free_prefix "ab".data
  exact h.2.2.1 (by decide)
